import Mathlib

/-!
Verification of the `differ` JSON-diff tool (`main.go`) against its
natural-language specification.

The Go program decodes two JSON files into dynamic values, diffs them with the
external r3labs/diff library, indexes the resulting change records by their
dot-joined path (`buildDiffMap`), and renders each (key-sorted) document as
HTML in which every object member and array element is annotated with the
change class found by looking its path up in the index (`renderJSON`,
`getChangeType`, `pathKey`, `sortedKeys`, `sortJSON`, `escapeHTML`).

Shallow embedding conventions:
- `interface` values decoded from JSON become the inductive `Json`;
  Go `map[string]interface` becomes an association list `List (String × Json)`
  (Go maps have unique keys; theorems that need this carry a `Nodup`
  hypothesis). JSON numbers are modelled by `Int`; no claim depends on the
  numeric representation.
- A Go map used as a dictionary (`DiffMap`) is modelled by an association
  list to which `m[p] = ct` conses a fresh binding at the front, so that
  `List.lookup` (first match) sees the most recent write, exactly like a map.
- The r3labs/diff engine itself is not part of the repository; it is modelled
  from the spec (see `diffSpec`).
-/

namespace Differ

/-- Change classes, modelling the Go `ChangeType` string constants. -/
abbrev ChangeType := String

/-- Go constant `Added = "added"`. -/
def Added : ChangeType := "added"

/-- Go constant `Removed = "removed"`. -/
def Removed : ChangeType := "removed"

/-- Go constant `Changed = "changed"`. -/
def Changed : ChangeType := "changed"

/-- Go constant `Unchanged = "unchanged"`. -/
def Unchanged : ChangeType := "unchanged"

/-- JSON values as decoded by Go `encoding/json` into dynamic values:
null, bool, number (float64, modelled by `Int`), string, array, object. -/
inductive Json where
  | null : Json
  | bool : Bool → Json
  | num : Int → Json
  | str : String → Json
  | arr : List Json → Json
  | obj : List (String × Json) → Json

/-- A change record as produced by the diff library: a `Type` string
("create" / "update" / "delete"), a path of segments, and the old/new
values. The Go field `Type` is a Lean keyword, so it is called `typ` here. -/
structure Change where
  typ : String
  path : List String
  fromVal : Option Json
  toVal : Option Json

/-- Go `strings.Join(segs, ".")`. -/
def joinDot : List String → String
  | [] => ""
  | [s] => s
  | s :: rest => s ++ "." ++ joinDot rest

/-- The `switch c.Type` mapping inside `buildDiffMap`. -/
def changeTypeOf (t : String) : ChangeType :=
  if t = "create" then Added
  else if t = "delete" then Removed
  else if t = "update" then Changed
  else Unchanged

/-- Go `type DiffMap map[string]ChangeType`, modelled as an association list
where the most recent insertion is first (see file header). -/
abbrev DiffMap := List (String × ChangeType)

/-- Go `buildDiffMap`: for each change, insert its dot-joined path with the
mapped change type into the map. -/
def buildDiffMap (changes : List Change) : DiffMap :=
  changes.foldl (fun m c => (joinDot c.path, changeTypeOf c.typ) :: m) []

/-- Go `getChangeType`: look the path up in the map, defaulting to
`Unchanged` when absent. -/
def getChangeType (diffMap : DiffMap) (path : String) : String :=
  match diffMap.lookup path with
  | some v => v
  | none => Unchanged

/-- Go `pathKey`: empty base returns the key alone; otherwise the key is
appended with a dot — identically whether or not `strconv.Atoi` accepts
the key (both branches of the source are the same). -/
def pathKey (base key : String) : String :=
  if base = "" then key
  else if (key.toInt?).isSome then base ++ "." ++ key
  else base ++ "." ++ key

/-- Go `sortedKeys`: the keys of the map, sorted ascending (`sort.Strings`).
`sort.Strings` is modelled by insertion sort, which agrees with it on every
input (a deterministic ascending sort). -/
def sortedKeys (m : List (String × Json)) : List String :=
  List.insertionSort (· ≤ ·) (m.map Prod.fst)

/-- Go map indexing `val[k]` on an object: the first binding of `k` (Go maps
have at most one), defaulting to the zero value (modelled as `null`; on
well-formed lookups the default is never used). -/
def mapGet (m : List (String × Json)) (k : String) : Json :=
  (m.lookup k).getD Json.null

/-- Character-level action of the Go `strings.NewReplacer` in `escapeHTML`:
all five patterns are single characters, so the replacer rewrites each
special character to its entity and passes every other character through. -/
def escChar (c : Char) : String :=
  if c = '&' then "&amp;"
  else if c = '<' then "&lt;"
  else if c = '>' then "&gt;"
  else if c = Char.ofNat 34 then "&quot;"
  else if c = Char.ofNat 39 then "&#39;"
  else String.singleton c

/-- `escChar` mapped over a character list. -/
def escList : List Char → List Char
  | [] => []
  | c :: cs => (escChar c).data ++ escList cs

/-- Go `escapeHTML`. -/
def escapeHTML (s : String) : String :=
  String.mk (escList s.data)

/-- The item loop of `renderJSON`: every item is closed with an
end-of-list-item tag, preceded by a comma on all but the last item
(mirrors `if i < len(keys)-1`). -/
def withCommas : List String → String
  | [] => ""
  | [s] => s ++ "</li>"
  | s :: rest => s ++ ",</li>" ++ withCommas rest

theorem sizeOf_lookup_lt {m : List (String × Json)} {k : String} {v : Json}
    (h : m.lookup k = some v) : sizeOf v < sizeOf m := by
  induction m with
  | nil => simp [List.lookup] at h
  | cons p t ih =>
    obtain ⟨k', v'⟩ := p
    rw [List.lookup] at h
    split at h
    · cases h
      simp
      omega
    · have := ih h
      simp
      omega

theorem sizeOf_mapGet_lt (m : List (String × Json)) (k : String) :
    sizeOf (mapGet m k) < sizeOf (Json.obj m) := by
  unfold mapGet
  cases h : m.lookup k with
  | none =>
    simp
    cases m <;> simp
  | some v =>
    have := sizeOf_lookup_lt h
    simp
    omega

theorem sizeOf_getD_lt (xs : List Json) (i : Nat) :
    sizeOf (xs.getD i Json.null) < sizeOf (Json.arr xs) := by
  induction xs generalizing i with
  | nil => cases i <;> simp [List.getD]
  | cons x t ih =>
    cases i with
    | zero => simp [List.getD]; omega
    | succ j =>
      have := ih j
      simp [List.getD] at this ⊢
      omega

/-- Go `renderJSON`: recursive HTML rendering. Objects iterate their sorted
keys, arrays their positions; each member/element is wrapped in a list item
carrying the change class looked up at its path. Literal braces in the
emitted markup are written as escapes. -/
def renderJSON : Json → String → DiffMap → String
  | Json.obj entries, path, diffMap =>
      "<div class=\"json-object\">\x7b<ul class=\"json-list\">"
        ++ withCommas ((sortedKeys entries).map (fun k =>
             "<li class=\"json-key " ++ getChangeType diffMap (pathKey path k) ++ "\">"
               ++ "<span class=\"key\">\"" ++ escapeHTML k ++ "\"</span>: "
               ++ renderJSON (mapGet entries k) (pathKey path k) diffMap))
        ++ "</ul>\x7d</div>"
  | Json.arr elems, path, diffMap =>
      "<div class=\"json-array\">[<ul class=\"json-list\">"
        ++ withCommas ((List.range elems.length).map (fun i =>
             "<li class=\"json-key " ++ getChangeType diffMap (pathKey path (Nat.repr i)) ++ "\">"
               ++ renderJSON (elems.getD i Json.null) (pathKey path (Nat.repr i)) diffMap))
        ++ "</ul>]</div>"
  | Json.str s, _, _ => "<span class=\"json-string\">\"" ++ escapeHTML s ++ "\"</span>"
  | Json.num n, _, _ => "<span class=\"json-number\">" ++ toString n ++ "</span>"
  | Json.bool b, _, _ =>
      "<span class=\"json-bool\">" ++ (if b then "true" else "false") ++ "</span>"
  | Json.null, _, _ => "<span class=\"json-null\">null</span>"
termination_by j _ _ => sizeOf j
decreasing_by
  · exact sizeOf_mapGet_lt entries k
  · exact sizeOf_getD_lt elems i

/-- Go `sortJSON`: objects are rebuilt with recursively sorted values (the
iteration over sorted keys fixes the association-list order of the model),
arrays are transformed element by element in place, scalars returned as-is. -/
def sortJSON : Json → Json
  | Json.obj entries =>
      Json.obj ((sortedKeys entries).map (fun k => (k, sortJSON (mapGet entries k))))
  | Json.arr elems =>
      Json.arr ((List.range elems.length).map (fun i => sortJSON (elems.getD i Json.null)))
  | Json.null => Json.null
  | Json.bool b => Json.bool b
  | Json.num v => Json.num v
  | Json.str s => Json.str s
termination_by j => sizeOf j
decreasing_by
  · exact sizeOf_mapGet_lt entries k
  · exact sizeOf_getD_lt elems i

/-- Modelled from the spec: the structural diff engine of §4.1. The repository
delegates diffing to the external r3labs/diff library (`diff.Diff`), whose
code is not part of the repository, so the engine is transcribed from the
spec's algorithm: objects emit `create` records for keys only in `b`,
`delete` records for keys only in `a`, and recurse on common keys; arrays
compare positionally, emitting `create`/`delete` for the extra indices of the
longer array; equal same-shape scalars emit nothing; everything else emits a
single `update` record at the current path. Type strings follow the
library's contract (`create`/`delete`/`update`), key iteration is sorted as
§4.1 requires, and paths accumulate from the root. -/
def diffSpec (path : List String) (a b : Json) : List Change :=
  match a, b with
  | Json.obj ea, Json.obj eb =>
      let keysA := ea.map Prod.fst
      let keysB := eb.map Prod.fst
      let adds := ((sortedKeys eb).filter (fun k => !keysA.contains k)).map
        (fun k => { typ := "create", path := path ++ [k],
                    fromVal := none, toVal := some (mapGet eb k) })
      let rems := ((sortedKeys ea).filter (fun k => !keysB.contains k)).map
        (fun k => { typ := "delete", path := path ++ [k],
                    fromVal := some (mapGet ea k), toVal := none })
      let recs := (((sortedKeys ea).filter (fun k => keysB.contains k)).map
        (fun k => diffSpec (path ++ [k]) (mapGet ea k) (mapGet eb k))).flatten
      adds ++ rems ++ recs
  | Json.arr xs, Json.arr ys =>
      let recs := ((List.range (min xs.length ys.length)).map
        (fun i => diffSpec (path ++ [Nat.repr i])
          (xs.getD i Json.null) (ys.getD i Json.null))).flatten
      let extras :=
        if xs.length < ys.length then
          (List.range' xs.length (ys.length - xs.length)).map
            (fun i => { typ := "create", path := path ++ [Nat.repr i],
                        fromVal := none, toVal := some (ys.getD i Json.null) })
        else if ys.length < xs.length then
          (List.range' ys.length (xs.length - ys.length)).map
            (fun i => { typ := "delete", path := path ++ [Nat.repr i],
                        fromVal := some (xs.getD i Json.null), toVal := none })
        else []
      recs ++ extras
  | Json.null, Json.null => []
  | Json.bool x, Json.bool y =>
      if x = y then [] else
        [{ typ := "update", path := path,
           fromVal := some (Json.bool x), toVal := some (Json.bool y) }]
  | Json.num x, Json.num y =>
      if x = y then [] else
        [{ typ := "update", path := path,
           fromVal := some (Json.num x), toVal := some (Json.num y) }]
  | Json.str x, Json.str y =>
      if x = y then [] else
        [{ typ := "update", path := path,
           fromVal := some (Json.str x), toVal := some (Json.str y) }]
  | x, y =>
      [{ typ := "update", path := path, fromVal := some x, toVal := some y }]
termination_by sizeOf a + sizeOf b
decreasing_by
  · have h1 := sizeOf_mapGet_lt ea k
    have h2 := sizeOf_mapGet_lt eb k
    simp at h1 h2 ⊢
    omega
  · have h1 := sizeOf_getD_lt xs i
    have h2 := sizeOf_getD_lt ys i
    simp at h1 h2 ⊢
    omega

/-- Denotational equality of JSON values: scalars agree, arrays agree
positionally, objects define the same key-to-value mapping (§3: object key
order is not semantically significant; array order is). -/
inductive EquivJson : Json → Json → Prop
  | null : EquivJson Json.null Json.null
  | bool : ∀ b, EquivJson (Json.bool b) (Json.bool b)
  | num : ∀ n, EquivJson (Json.num n) (Json.num n)
  | str : ∀ s, EquivJson (Json.str s) (Json.str s)
  | arr : ∀ {xs ys : List Json}, xs.length = ys.length →
      (∀ i (h1 : i < xs.length) (h2 : i < ys.length),
        EquivJson (xs.get ⟨i, h1⟩) (ys.get ⟨i, h2⟩)) →
      EquivJson (Json.arr xs) (Json.arr ys)
  | obj : ∀ {ea eb : List (String × Json)},
      (∀ k, (ea.lookup k).isSome = (eb.lookup k).isSome) →
      (∀ k v w, ea.lookup k = some v → eb.lookup k = some w → EquivJson v w) →
      EquivJson (Json.obj ea) (Json.obj eb)

/-- Well-formedness of the association-list object model: every object level
has pairwise-distinct keys, as a Go `map[string]interface` always does. -/
inductive NodupJson : Json → Prop
  | null : NodupJson Json.null
  | bool : ∀ b, NodupJson (Json.bool b)
  | num : ∀ n, NodupJson (Json.num n)
  | str : ∀ s, NodupJson (Json.str s)
  | arr : ∀ {xs : List Json}, (∀ x, x ∈ xs → NodupJson x) → NodupJson (Json.arr xs)
  | obj : ∀ {ea : List (String × Json)}, (ea.map Prod.fst).Nodup →
      (∀ p, p ∈ ea → NodupJson p.2) → NodupJson (Json.obj ea)

/-! ### Helper lemmas about paths and the change index -/

theorem pathKey_eq (base key : String) :
    pathKey base key = if base = "" then key else base ++ "." ++ key := by
  unfold pathKey
  by_cases h : base = "" <;> simp [h]

theorem lookup_eq_none_of_not_mem {β : Type} {l : List (String × β)} {k : String}
    (h : k ∉ l.map Prod.fst) : l.lookup k = none := by
  induction l with
  | nil => rfl
  | cons p t ih =>
    obtain ⟨a, b⟩ := p
    simp at h
    rw [List.lookup]
    have : (k == a) = false := by simp [h.1]
    rw [this]
    exact ih (by simp [h.2])

theorem lookup_append_of_not_mem {β : Type} (l₁ l₂ : List (String × β)) (k : String)
    (h : ∀ p ∈ l₁, p.1 ≠ k) : (l₁ ++ l₂).lookup k = l₂.lookup k := by
  induction l₁ with
  | nil => rfl
  | cons p t ih =>
    obtain ⟨a, b⟩ := p
    rw [List.cons_append, List.lookup]
    have ha : a ≠ k := h (a, b) (List.mem_cons_self _ _)
    have : (k == a) = false := by simp [Ne.symm ha]
    rw [this]
    exact ih (fun p hp => h p (List.mem_cons_of_mem _ hp))

theorem buildDiffMap_eq (changes : List Change) :
    buildDiffMap changes
      = (changes.map (fun c => (joinDot c.path, changeTypeOf c.typ))).reverse := by
  suffices h : ∀ acc, changes.foldl (fun m c => (joinDot c.path, changeTypeOf c.typ) :: m) acc
      = (changes.map fun c => (joinDot c.path, changeTypeOf c.typ)).reverse ++ acc by
    simpa using h []
  induction changes with
  | nil => intro acc; simp
  | cons c t ih => intro acc; simp [ih]

/-- The index built by `buildDiffMap` answers the lookup of a change's joined
path with the mapped type of the last change bearing that joined path. -/
theorem getChangeType_buildDiffMap_last (pre post : List Change) (c : Change)
    (h : ∀ d ∈ post, joinDot d.path ≠ joinDot c.path) :
    getChangeType (buildDiffMap (pre ++ c :: post)) (joinDot c.path)
      = changeTypeOf c.typ := by
  rw [getChangeType, buildDiffMap_eq]
  rw [List.map_append, List.map_cons, List.reverse_append, List.reverse_cons]
  rw [List.append_assoc]
  rw [lookup_append_of_not_mem]
  · rw [List.cons_append, List.lookup]
    simp
  · intro p hp
    simp at hp
    obtain ⟨d, hd, rfl⟩ := hp
    exact h d hd

theorem foldl_pathKey_join (base : String) (t : List String) (hb : base ≠ "") :
    List.foldl pathKey base t = joinDot (base :: t) := by
  induction t generalizing base with
  | nil => simp [joinDot]
  | cons s t' ih =>
    rw [List.foldl, pathKey_eq, if_neg hb]
    have hb' : base ++ "." ++ s ≠ "" := by
      intro e
      have hlen : (base ++ "." ++ s).length = 0 := by rw [e]; rfl
      simp [String.length_append] at hlen
      exact absurd hlen.1.2 (by decide)
    rw [ih _ hb']
    cases t' with
    | nil => simp [joinDot]
    | cons u t'' => simp [joinDot, String.append_assoc]

/-! ### Claims C1, C3, C4, C5, C8 -/

/-- Claim C1, counterexample: the claim fails as stated when two changes in
the sequence share a joined path — for `[create at x, delete at x]` the
index answers `Removed` at the first change's path, not its own kind
`Added` (last write wins in `buildDiffMap`). -/
theorem C1_index_fidelity_cex :
    (⟨"create", ["x"], none, none⟩ : Change) ∈
        [(⟨"create", ["x"], none, none⟩ : Change), ⟨"delete", ["x"], none, none⟩]
      ∧ getChangeType
          (buildDiffMap [(⟨"create", ["x"], none, none⟩ : Change),
            ⟨"delete", ["x"], none, none⟩])
          (joinDot ["x"]) = Removed
      ∧ Removed ≠ Added :=
  ⟨List.mem_cons_self _ _, rfl, by decide⟩

/-- Claim C1 (amended): for every change in the sequence passed to
`buildDiffMap` after which no later change has the same dot-joined path —
in particular whenever all joined paths are distinct — looking the built
index up at that change's joined path returns its kind, with `create`
mapped to `Added`, `delete` to `Removed`, `update` to `Changed` (and any
other type string to `Unchanged`). -/
theorem C1_index_fidelity (pre post : List Change) (c : Change)
    (h : ∀ d ∈ post, joinDot d.path ≠ joinDot c.path) :
    getChangeType (buildDiffMap (pre ++ c :: post)) (joinDot c.path)
      = (if c.typ = "create" then Added
         else if c.typ = "delete" then Removed
         else if c.typ = "update" then Changed
         else Unchanged) := by
  rw [getChangeType_buildDiffMap_last pre post c h]
  rfl

/-- Claim C1, witness: the amended theorem applied to the singleton sequence
with a `create` change at path `x`. -/
theorem C1_index_fidelity_witness :
    getChangeType (buildDiffMap [(⟨"create", ["x"], none, none⟩ : Change)])
        (joinDot ["x"]) = Added := by
  have h := C1_index_fidelity [] [] ⟨"create", ["x"], none, none⟩ (by simp)
  simpa using h

/-- Claim C3: for every index built by `buildDiffMap` and every path string
that does not occur among its keys, `getChangeType` returns `Unchanged`. -/
theorem C3_default_lookup_unchanged (changes : List Change) (p : String)
    (h : p ∉ (buildDiffMap changes).map Prod.fst) :
    getChangeType (buildDiffMap changes) p = Unchanged := by
  rw [getChangeType, lookup_eq_none_of_not_mem h]

/-- Claim C3, witness: the theorem applied to a one-change index and the
absent path `y`. -/
theorem C3_default_lookup_unchanged_witness :
    getChangeType (buildDiffMap [(⟨"create", ["x"], none, none⟩ : Change)]) ("y")
      = Unchanged :=
  C3_default_lookup_unchanged [⟨"create", ["x"], none, none⟩] ("y") (by decide)

/-- Claim C4, counterexample: the claim fails as stated when the first
segment is the empty string — folding `pathKey` over `["", "a"]` from the
empty base yields `a`, while the diff side joins the same segments to
`.a`. -/
theorem C4_path_agreement_cex :
    List.foldl pathKey ("") (["", "a"]) ≠ joinDot (["", "a"]) := by
  intro e
  rw [List.foldl, List.foldl, List.foldl, pathKey_eq, pathKey_eq] at e
  simp [joinDot] at e

/-- Claim C4 (amended): for every finite sequence of path segments whose
first segment (if any) is nonempty — as is the case for every path built
from actual object keys and array indices starting at a nonempty root
segment — folding `pathKey` over the segments starting from the empty
string produces exactly the dot-join `joinDot` used by `buildDiffMap`. -/
theorem C4_path_agreement (segs : List String) (h : segs.head? ≠ some "") :
    List.foldl pathKey ("") segs = joinDot segs := by
  cases segs with
  | nil => rfl
  | cons a t =>
    have ha : a ≠ "" := by
      intro e
      rw [e] at h
      simp at h
    rw [List.foldl, pathKey_eq, if_pos rfl]
    exact foldl_pathKey_join a t ha

/-- Claim C4, witness: the amended theorem applied to the segments
`["a", "b"]`. -/
theorem C4_path_agreement_witness :
    List.foldl pathKey ("") (["a", "b"]) = joinDot (["a", "b"]) :=
  C4_path_agreement (["a", "b"]) (by decide)

/-- Claim C5: `pathKey` returns the segment itself on an empty base and
otherwise appends it to the base with a dot, identically whether the
segment is a decimal array index or an object key; in particular the array
index `2` (rendered as its decimal digits) and the object key `"2"` yield
the same canonical path at every base. -/
theorem C5_canonical_path_form (base key : String) :
    pathKey base key = (if base = "" then key else base ++ "." ++ key)
      ∧ pathKey base (Nat.repr 2) = pathKey base ("2") :=
  ⟨pathKey_eq base key, rfl⟩

/-- Claim C8, counterexample: the claim fails as stated when a later change
shares the joined path — after `[weird at x, create at x]` the lookup at
`x` answers `Added`, not `Unchanged`, although `weird` is none of
`create`/`delete`/`update`. -/
theorem C8_unknown_type_cex :
    ((⟨"weird", ["x"], none, none⟩ : Change) ∈
        [(⟨"weird", ["x"], none, none⟩ : Change), ⟨"create", ["x"], none, none⟩])
      ∧ ¬ ("weird" = "create" ∨ "weird" = "delete" ∨ "weird" = "update")
      ∧ getChangeType
          (buildDiffMap [(⟨"weird", ["x"], none, none⟩ : Change),
            ⟨"create", ["x"], none, none⟩])
          (joinDot ["x"]) = Added
      ∧ Added ≠ Unchanged :=
  ⟨List.mem_cons_self _ _, by decide, rfl, by decide⟩

/-- Claim C8 (amended): a change whose type string is none of `create`,
`delete`, `update` still gets its joined path inserted as a key of the
index, but with value `Unchanged`; provided no later change in the
sequence shares that joined path, a subsequent `getChangeType` lookup
returns `Unchanged`, indistinguishable from the path being absent. -/
theorem C8_unknown_type_unchanged (pre post : List Change) (c : Change)
    (hc : ¬ (c.typ = "create" ∨ c.typ = "delete" ∨ c.typ = "update"))
    (h : ∀ d ∈ post, joinDot d.path ≠ joinDot c.path) :
    joinDot c.path ∈ (buildDiffMap (pre ++ c :: post)).map Prod.fst
      ∧ getChangeType (buildDiffMap (pre ++ c :: post)) (joinDot c.path)
        = Unchanged := by
  constructor
  · rw [buildDiffMap_eq]
    simp
  · rw [getChangeType_buildDiffMap_last pre post c h]
    push_neg at hc
    rw [changeTypeOf, if_neg hc.1, if_neg hc.2.1, if_neg hc.2.2]

/-- Claim C8, witness: the amended theorem applied to a singleton sequence
with the unknown type string `weird`. -/
theorem C8_unknown_type_unchanged_witness :
    joinDot ["x"] ∈ (buildDiffMap [(⟨"weird", ["x"], none, none⟩ : Change)]).map Prod.fst
      ∧ getChangeType (buildDiffMap [(⟨"weird", ["x"], none, none⟩ : Change)])
          (joinDot ["x"]) = Unchanged := by
  have h := C8_unknown_type_unchanged [] [] ⟨"weird", ["x"], none, none⟩
    (by decide) (by simp)
  simpa using h

/-! ### Claim C2: identity of the diff engine -/

theorem diffSpec_self_aux :
    ∀ (n : Nat) (x : Json), sizeOf x ≤ n → ∀ path, diffSpec path x x = [] := by
  intro n
  induction n with
  | zero =>
    intro x hx path
    cases x <;> simp at hx
  | succ n ih =>
    intro x hx path
    cases x with
    | null => simp [diffSpec]
    | bool b => simp [diffSpec]
    | num v => simp [diffSpec]
    | str s => simp [diffSpec]
    | arr xs =>
      have hlt : ∀ i, sizeOf (xs.getD i Json.null) ≤ n := by
        intro i
        have h1 := sizeOf_getD_lt xs i
        simp only [Json.arr.sizeOf_spec] at h1 hx
        omega
      simp [diffSpec, List.flatten_eq_nil_iff]
      intro i _
      have h2 := hlt i
      simp only [List.getD, List.get?_eq_getElem?] at h2
      exact ih _ h2 _
    | obj ea =>
      have hlt : ∀ k, sizeOf (mapGet ea k) ≤ n := by
        intro k
        have h1 := sizeOf_mapGet_lt ea k
        simp only [Json.obj.sizeOf_spec] at h1 hx
        omega
      simp [diffSpec, List.filter_eq_nil_iff, List.flatten_eq_nil_iff]
      constructor
      · intro k hk
        rw [sortedKeys, List.mem_insertionSort, List.mem_map] at hk
        obtain ⟨⟨a, b⟩, hp, rfl⟩ := hk
        exact ⟨b, hp⟩
      · intro l k hk v hv hl
        rw [← hl]
        exact ih _ (hlt k) _

/-- Claim C2: for every JsonValue `x`, the diff engine of §4.1 (modelled from
the spec as `diffSpec`, since the repository delegates diffing to the
external r3labs/diff library) yields an empty change sequence on
`diff(x, x)`, at every accumulated path. -/
theorem C2_diff_identity (x : Json) (path : List String) : diffSpec path x x = [] :=
  diffSpec_self_aux (sizeOf x) x (Nat.le_refl _) path

/-! ### Claim C9: sortJSON preserves content -/

theorem lookup_map_pair (l : List String) (f : String → Json) (k : String) :
    (l.map (fun k => (k, f k))).lookup k = if k ∈ l then some (f k) else none := by
  induction l with
  | nil => rfl
  | cons a t ih =>
    rw [List.map_cons, List.lookup]
    by_cases hk : k = a
    · subst hk
      simp
    · have : (k == a) = false := by simp [hk]
      rw [this, ih]
      simp [hk]

theorem mem_sortedKeys (m : List (String × Json)) (k : String) :
    k ∈ sortedKeys m ↔ k ∈ m.map Prod.fst := by
  rw [sortedKeys, List.mem_insertionSort]

theorem lookup_isSome_iff {β : Type} (l : List (String × β)) (k : String) :
    (l.lookup k).isSome = true ↔ k ∈ l.map Prod.fst := by
  induction l with
  | nil => simp [List.lookup]
  | cons p t ih =>
    obtain ⟨a, b⟩ := p
    rw [List.lookup]
    by_cases hk : k = a
    · subst hk
      simp
    · have : (k == a) = false := by simp [hk]
      rw [this]
      simp [ih, hk]

theorem sortJSON_equiv_aux :
    ∀ (n : Nat) (v : Json), sizeOf v ≤ n → EquivJson (sortJSON v) v := by
  intro n
  induction n with
  | zero =>
    intro v hv
    cases v <;> simp at hv
  | succ n ih =>
    intro v hv
    cases v with
    | null =>
      have hs : sortJSON Json.null = Json.null := by simp [sortJSON]
      rw [hs]
      exact EquivJson.null
    | bool b =>
      have hs : sortJSON (Json.bool b) = Json.bool b := by simp [sortJSON]
      rw [hs]
      exact EquivJson.bool b
    | num v =>
      have hs : sortJSON (Json.num v) = Json.num v := by simp [sortJSON]
      rw [hs]
      exact EquivJson.num v
    | str s =>
      have hs : sortJSON (Json.str s) = Json.str s := by simp [sortJSON]
      rw [hs]
      exact EquivJson.str s
    | arr xs =>
      have hlt : ∀ i, sizeOf (xs.getD i Json.null) ≤ n := by
        intro i
        have h1 := sizeOf_getD_lt xs i
        simp only [Json.arr.sizeOf_spec] at h1 hv
        omega
      have hs : sortJSON (Json.arr xs)
          = Json.arr ((List.range xs.length).map (fun i => sortJSON (xs.getD i Json.null))) := by
        simp [sortJSON]
      rw [hs]
      refine EquivJson.arr (by simp) ?_
      intro i h1 h2
      have hg : ((List.range xs.length).map
            (fun i => sortJSON (xs.getD i Json.null))).get ⟨i, h1⟩
          = sortJSON (xs.getD i Json.null) := by
        simp
      have hx : xs.getD i Json.null = xs.get ⟨i, h2⟩ := by
        rw [List.getD_eq_getElem _ _ h2]
        simp
      rw [hg, hx]
      have := ih _ (hlt i)
      rw [hx] at this
      exact this
    | obj ea =>
      have hlt : ∀ k, sizeOf (mapGet ea k) ≤ n := by
        intro k
        have h1 := sizeOf_mapGet_lt ea k
        simp only [Json.obj.sizeOf_spec] at h1 hv
        omega
      have hs : sortJSON (Json.obj ea)
          = Json.obj ((sortedKeys ea).map (fun k => (k, sortJSON (mapGet ea k)))) := by
        simp [sortJSON]
      rw [hs]
      refine EquivJson.obj ?_ ?_
      · intro k
        rw [lookup_map_pair]
        by_cases hk : k ∈ sortedKeys ea
        · rw [if_pos hk]
          have h1 : k ∈ ea.map Prod.fst := (mem_sortedKeys ea k).1 hk
          have h2 : (ea.lookup k).isSome = true := (lookup_isSome_iff ea k).2 h1
          rw [h2]
          rfl
        · rw [if_neg hk]
          have h1 : k ∉ ea.map Prod.fst := fun h => hk ((mem_sortedKeys ea k).2 h)
          rw [lookup_eq_none_of_not_mem h1]
      · intro k v w hv' hw
        rw [lookup_map_pair] at hv'
        by_cases hk : k ∈ sortedKeys ea
        · rw [if_pos hk] at hv'
          cases hv'
          have hm : mapGet ea k = w := by rw [mapGet, hw]; rfl
          rw [← hm]
          exact ih _ (hlt k)
        · rw [if_neg hk] at hv'
          cases hv'

/-- Claim C9: `sortJSON` is content-preserving — for every JsonValue `v`,
`sortJSON v` denotes the same JSON value as `v`: scalars unchanged, arrays
of the same length with positionally equivalent elements, and objects with
exactly the same key-to-value mapping. -/
theorem C9_sortJSON_content_preserving (v : Json) : EquivJson (sortJSON v) v :=
  sortJSON_equiv_aux (sizeOf v) v (Nat.le_refl _)

/-! ### Claim C10: escapeHTML sanitizes its input -/

/-- The five replacement entities of the Go `strings.NewReplacer`. -/
def entityList : List String := ["&amp;", "&lt;", "&gt;", "&quot;", "&#39;"]

/-- The five characters the replacer rewrites. -/
def specialChars : List Char := ['&', '<', '>', Char.ofNat 34, Char.ofNat 39]

/-- Block structure of replacer output: a concatenation of entities (each
introduced for a special character) and passed-through non-special
characters. -/
inductive Blocks : List Char → Prop
  | nil : Blocks []
  | ent : ∀ (e : String) (rest : List Char),
      e ∈ entityList → Blocks rest → Blocks (e.data ++ rest)
  | chr : ∀ (c : Char) (rest : List Char),
      c ∉ specialChars → Blocks rest → Blocks (c :: rest)

theorem escChar_special : ∀ c ∈ specialChars, escChar c ∈ entityList := by decide

theorem escChar_nonspecial (c : Char) (h : c ∉ specialChars) :
    escChar c = String.singleton c := by
  unfold escChar
  simp [specialChars] at h
  rw [if_neg h.1, if_neg h.2.1, if_neg h.2.2.1, if_neg h.2.2.2.1, if_neg h.2.2.2.2]

theorem blocks_escList (l : List Char) : Blocks (escList l) := by
  induction l with
  | nil => exact Blocks.nil
  | cons c cs ih =>
    rw [escList]
    by_cases h : c ∈ specialChars
    · exact Blocks.ent (escChar c) _ (escChar_special c h) ih
    · rw [escChar_nonspecial c h]
      exact Blocks.chr c _ h ih

theorem entity_no_forbidden : ∀ e ∈ entityList, ∀ c ∈ e.data,
    ¬ (c = '<' ∨ c = '>' ∨ c = Char.ofNat 34 ∨ c = Char.ofNat 39) := by decide

theorem entity_amp_shape : ∀ e ∈ entityList,
    e.data.head? = some '&' ∧ '&' ∉ e.data.tail := by decide

theorem blocks_no_forbidden {l : List Char} (h : Blocks l) : ∀ c ∈ l,
    ¬ (c = '<' ∨ c = '>' ∨ c = Char.ofNat 34 ∨ c = Char.ofNat 39) := by
  induction h with
  | nil => simp
  | ent e rest he _ ih =>
    intro c hc
    rcases List.mem_append.1 hc with h1 | h2
    · exact entity_no_forbidden e he c h1
    · exact ih c h2
  | chr c0 rest hc0 _ ih =>
    intro c hc
    rcases List.mem_cons.1 hc with rfl | h2
    · intro hor
      apply hc0
      rcases hor with h | h | h | h <;> rw [h] <;> decide
    · exact ih c h2

theorem blocks_amp {l : List Char} (h : Blocks l) :
    ∀ n, l.get? n = some '&' → ∃ e ∈ entityList, e.data <+: l.drop n := by
  induction h with
  | nil =>
    intro n hn
    simp at hn
  | ent e rest he _ ih =>
    intro n hn
    obtain ⟨hh, ht⟩ := entity_amp_shape e he
    by_cases hlt : n < e.data.length
    · cases n with
      | zero => exact ⟨e, he, rest, rfl⟩
      | succ m =>
        exfalso
        rw [List.get?_append hlt] at hn
        obtain ⟨tl, htl⟩ : ∃ tl, e.data = '&' :: tl := by
          cases hd : e.data with
          | nil => rw [hd] at hh; simp at hh
          | cons x xs =>
            rw [hd] at hh
            simp at hh
            exact ⟨xs, by rw [hh]⟩
        apply ht
        rw [htl]
        rw [htl] at hn
        simp only [List.get?_cons_succ] at hn
        exact List.get?_mem hn
    · push_neg at hlt
      rw [List.get?_append_right hlt] at hn
      obtain ⟨e', he', hp⟩ := ih _ hn
      refine ⟨e', he', ?_⟩
      have hsplit : n = e.data.length + (n - e.data.length) := by omega
      rw [hsplit, List.drop_append]
      exact hp
  | chr c0 rest hc0 _ ih =>
    intro n hn
    cases n with
    | zero =>
      exfalso
      simp at hn
      apply hc0
      rw [hn]
      decide
    | succ m =>
      simp only [List.get?_cons_succ] at hn
      obtain ⟨e', he', hp⟩ := ih m hn
      exact ⟨e', he', by simpa using hp⟩

/-- Claim C10: `escapeHTML` sanitizes its input — for every input string the
output contains none of the characters lt, gt, double-quote, apostrophe,
and every occurrence of the ampersand in the output is the first character
of one of the five replacement entities introduced for a corresponding
special character of the input. -/
theorem C10_escapeHTML_sanitizes (s : String) :
    (∀ c ∈ (escapeHTML s).data,
        ¬ (c = '<' ∨ c = '>' ∨ c = Char.ofNat 34 ∨ c = Char.ofNat 39))
      ∧ ∀ n : Nat, (escapeHTML s).data.get? n = some '&' →
          ∃ e ∈ entityList, e.data <+: (escapeHTML s).data.drop n := by
  have hb : Blocks (escapeHTML s).data := blocks_escList s.data
  exact ⟨blocks_no_forbidden hb, blocks_amp hb⟩

/-- Claim C10, witness: the theorem applied to the input string containing
an `a` and a lt character — the output is `a&lt;`, whose ampersand at
index 1 begins the entity and whose characters avoid the forbidden set. -/
theorem C10_escapeHTML_sanitizes_witness :
    (¬ ('a' = '<' ∨ 'a' = '>' ∨ 'a' = Char.ofNat 34 ∨ 'a' = Char.ofNat 39))
      ∧ ∃ e ∈ entityList, e.data <+: (escapeHTML ("a<")).data.drop 1 :=
  ⟨(C10_escapeHTML_sanitizes ("a<")).1 'a' (by decide),
   (C10_escapeHTML_sanitizes ("a<")).2 1 (by decide)⟩

/-! ### Claim C6: per-node annotation in renderJSON -/

theorem renderJSON_obj (entries : List (String × Json)) (path : String) (m : DiffMap) :
    renderJSON (Json.obj entries) path m
      = "<div class=\"json-object\">\x7b<ul class=\"json-list\">"
          ++ withCommas ((sortedKeys entries).map (fun k =>
               "<li class=\"json-key " ++ getChangeType m (pathKey path k) ++ "\">"
                 ++ "<span class=\"key\">\"" ++ escapeHTML k ++ "\"</span>: "
                 ++ renderJSON (mapGet entries k) (pathKey path k) m))
          ++ "</ul>\x7d</div>" := by
  rw [renderJSON]

theorem renderJSON_arr (elems : List Json) (path : String) (m : DiffMap) :
    renderJSON (Json.arr elems) path m
      = "<div class=\"json-array\">[<ul class=\"json-list\">"
          ++ withCommas ((List.range elems.length).map (fun i =>
               "<li class=\"json-key " ++ getChangeType m (pathKey path (Nat.repr i)) ++ "\">"
                 ++ renderJSON (elems.getD i Json.null) (pathKey path (Nat.repr i)) m))
          ++ "</ul>]</div>" := by
  rw [renderJSON]

theorem renderJSON_str (s path : String) (m : DiffMap) :
    renderJSON (Json.str s) path m
      = "<span class=\"json-string\">\"" ++ escapeHTML s ++ "\"</span>" := by
  rw [renderJSON]

theorem withCommas_cons_cons (s t : String) (ts : List String) :
    withCommas (s :: t :: ts) = s ++ ",</li>" ++ withCommas (t :: ts) := by
  rw [withCommas]
  simp

theorem withCommas_mem_infix {items : List String} {a : String} (h : a ∈ items) :
    ∃ p q, withCommas items = p ++ a ++ q := by
  induction items with
  | nil => cases h
  | cons s rest ih =>
    cases rest with
    | nil =>
      rcases List.mem_singleton.1 h with rfl
      refine ⟨"", "</li>", ?_⟩
      rw [withCommas]
      simp
    | cons t ts =>
      rcases List.mem_cons.1 h with rfl | hmem
      · refine ⟨"", ",</li>" ++ withCommas (t :: ts), ?_⟩
        rw [withCommas_cons_cons]
        simp [String.append_assoc]
      · obtain ⟨p, q, hp⟩ := ih hmem
        refine ⟨s ++ ",</li>" ++ p, q, ?_⟩
        rw [withCommas_cons_cons, hp]
        simp [String.append_assoc]

/-- Claim C6, counterexample: the claim fails at the root node — for a root
scalar whose own canonical path is indexed as changed, the emitted markup
is a bare class-free span that does not carry (contain) the change class
at the root's own path. -/
theorem C6_per_node_class_cex :
    getChangeType (buildDiffMap [(⟨"update", [], none, none⟩ : Change)]) ("") = Changed
      ∧ renderJSON (Json.str ("a")) ("")
          (buildDiffMap [(⟨"update", [], none, none⟩ : Change)])
          = "<span class=\"json-string\">\"a\"</span>"
      ∧ ¬ ((Changed : String).data <:+:
            ("<span class=\"json-string\">\"a\"</span>" : String).data) := by
  refine ⟨rfl, ?_, by decide⟩
  rw [renderJSON_str]
  rfl

/-- Claim C6 (amended): `renderJSON` annotates every non-root node — every
object member and every array element is emitted inside a list item whose
class is the change class obtained by looking up that node's own canonical
path (so a scalar is annotated via its enclosing list item at the leaf's
own path, not a child path), followed by the node's own recursive
rendering at that path; the root node's own emission carries no class (a
root scalar is rendered as a fixed class-free span independent of the
index). -/
theorem C6_per_node_class :
    (∀ (entries : List (String × Json)) (path : String) (m : DiffMap) (k : String),
      k ∈ sortedKeys entries →
        ∃ pre post, renderJSON (Json.obj entries) path m
          = pre ++ ("<li class=\"json-key " ++ getChangeType m (pathKey path k) ++ "\">"
              ++ "<span class=\"key\">\"" ++ escapeHTML k ++ "\"</span>: "
              ++ renderJSON (mapGet entries k) (pathKey path k) m) ++ post)
    ∧ (∀ (elems : List Json) (path : String) (m : DiffMap) (i : Nat),
      i < elems.length →
        ∃ pre post, renderJSON (Json.arr elems) path m
          = pre ++ ("<li class=\"json-key "
              ++ getChangeType m (pathKey path (Nat.repr i)) ++ "\">"
              ++ renderJSON (elems.getD i Json.null) (pathKey path (Nat.repr i)) m) ++ post)
    ∧ (∀ (s path : String) (m : DiffMap),
        renderJSON (Json.str s) path m
          = "<span class=\"json-string\">\"" ++ escapeHTML s ++ "\"</span>") := by
  refine ⟨?_, ?_, renderJSON_str⟩
  · intro entries path m k hk
    have hmem := List.mem_map_of_mem (fun k =>
      "<li class=\"json-key " ++ getChangeType m (pathKey path k) ++ "\">"
        ++ "<span class=\"key\">\"" ++ escapeHTML k ++ "\"</span>: "
        ++ renderJSON (mapGet entries k) (pathKey path k) m) hk
    obtain ⟨p, q, hp⟩ := withCommas_mem_infix hmem
    refine ⟨"<div class=\"json-object\">\x7b<ul class=\"json-list\">" ++ p,
            q ++ "</ul>\x7d</div>", ?_⟩
    rw [renderJSON_obj, hp]
    simp [String.append_assoc]
  · intro elems path m i hi
    have hmem := List.mem_map_of_mem (fun i =>
      "<li class=\"json-key " ++ getChangeType m (pathKey path (Nat.repr i)) ++ "\">"
        ++ renderJSON (elems.getD i Json.null) (pathKey path (Nat.repr i)) m)
      (List.mem_range.2 hi)
    obtain ⟨p, q, hp⟩ := withCommas_mem_infix hmem
    refine ⟨"<div class=\"json-array\">[<ul class=\"json-list\">" ++ p,
            q ++ "</ul>]</div>", ?_⟩
    rw [renderJSON_arr, hp]
    simp [String.append_assoc]

/-- Claim C6, witness: the amended theorem applied to a one-member object,
a one-element array, and a root string, with the empty index. -/
theorem C6_per_node_class_witness :
    (∃ pre post, renderJSON (Json.obj [(("a"), Json.null)]) ("") []
      = pre ++ ("<li class=\"json-key " ++ getChangeType [] (pathKey ("") ("a")) ++ "\">"
          ++ "<span class=\"key\">\"" ++ escapeHTML ("a") ++ "\"</span>: "
          ++ renderJSON (mapGet [(("a"), Json.null)] ("a")) (pathKey ("") ("a")) []) ++ post)
    ∧ (∃ pre post, renderJSON (Json.arr [Json.null]) ("") []
      = pre ++ ("<li class=\"json-key "
          ++ getChangeType [] (pathKey ("") (Nat.repr 0)) ++ "\">"
          ++ renderJSON ([Json.null].getD 0 Json.null) (pathKey ("") (Nat.repr 0)) []) ++ post)
    ∧ renderJSON (Json.str ("x")) ("") []
        = "<span class=\"json-string\">\"" ++ escapeHTML ("x") ++ "\"</span>" :=
  ⟨C6_per_node_class.1 [(("a"), Json.null)] ("") [] ("a") (by decide),
   C6_per_node_class.2.1 [Json.null] ("") [] 0 (by decide),
   C6_per_node_class.2.2 ("x") ("") []⟩

/-! ### Claim C7: renderer determinism over object key order -/

theorem lookup_mem {β : Type} {l : List (String × β)} {k : String} {v : β}
    (h : l.lookup k = some v) : (k, v) ∈ l := by
  induction l with
  | nil => simp [List.lookup] at h
  | cons p t ih =>
    obtain ⟨a, b⟩ := p
    rw [List.lookup] at h
    split at h
    · cases h
      have hk : k = a := by
        rename_i hbe
        simpa using hbe
      rw [hk]
      exact List.mem_cons_self _ _
    · exact List.mem_cons_of_mem _ (ih h)

theorem sortedKeys_eq_of_same_keys {ea eb : List (String × Json)}
    (hkeys : ∀ k, (ea.lookup k).isSome = (eb.lookup k).isSome)
    (na : (ea.map Prod.fst).Nodup) (nb : (eb.map Prod.fst).Nodup) :
    sortedKeys ea = sortedKeys eb := by
  rw [sortedKeys, sortedKeys]
  apply List.eq_of_perm_of_sorted ?_
    (List.sorted_insertionSort _ _) (List.sorted_insertionSort _ _)
  have pa := List.perm_insertionSort (· ≤ ·) (ea.map Prod.fst)
  have pb := List.perm_insertionSort (· ≤ ·) (eb.map Prod.fst)
  refine pa.trans (List.Perm.trans ?_ pb.symm)
  rw [List.perm_ext_iff_of_nodup na nb]
  intro k
  rw [← lookup_isSome_iff, ← lookup_isSome_iff, hkeys]

theorem render_eq_of_equiv : ∀ {v w : Json}, EquivJson v w →
    NodupJson v → NodupJson w →
    ∀ (path : String) (m : DiffMap), renderJSON v path m = renderJSON w path m := by
  intro v w he
  induction he with
  | null => intro _ _ path m; rfl
  | bool b => intro _ _ path m; rfl
  | num n => intro _ _ path m; rfl
  | str s => intro _ _ path m; rfl
  | @arr xs ys hlen helem ih =>
    intro hnx hny path m
    have hvx : ∀ x ∈ xs, NodupJson x := by cases hnx; assumption
    have hvy : ∀ y ∈ ys, NodupJson y := by cases hny; assumption
    rw [renderJSON_arr, renderJSON_arr, hlen]
    have hmap : (List.range ys.length).map (fun i =>
          "<li class=\"json-key " ++ getChangeType m (pathKey path (Nat.repr i)) ++ "\">"
            ++ renderJSON (xs.getD i Json.null) (pathKey path (Nat.repr i)) m)
        = (List.range ys.length).map (fun i =>
          "<li class=\"json-key " ++ getChangeType m (pathKey path (Nat.repr i)) ++ "\">"
            ++ renderJSON (ys.getD i Json.null) (pathKey path (Nat.repr i)) m) := by
      apply List.map_congr_left
      intro i hi
      have h2 : i < ys.length := List.mem_range.1 hi
      have h1 : i < xs.length := by omega
      have hgx : xs.getD i Json.null = xs.get ⟨i, h1⟩ := by
        rw [List.getD_eq_getElem _ _ h1]
        simp
      have hgy : ys.getD i Json.null = ys.get ⟨i, h2⟩ := by
        rw [List.getD_eq_getElem _ _ h2]
        simp
      rw [hgx, hgy,
        ih i h1 h2 (hvx _ (xs.get_mem i h1)) (hvy _ (ys.get_mem i h2))
          (pathKey path (Nat.repr i)) m]
    rw [hmap]
  | @obj ea eb h1 h2 ih =>
    intro hnx hny path m
    have na : (ea.map Prod.fst).Nodup := by cases hnx; assumption
    have hva : ∀ p ∈ ea, NodupJson p.2 := by cases hnx; assumption
    have nb : (eb.map Prod.fst).Nodup := by cases hny; assumption
    have hvb : ∀ p ∈ eb, NodupJson p.2 := by cases hny; assumption
    rw [renderJSON_obj, renderJSON_obj, sortedKeys_eq_of_same_keys h1 na nb]
    have hmap : (sortedKeys eb).map (fun k =>
          "<li class=\"json-key " ++ getChangeType m (pathKey path k) ++ "\">"
            ++ "<span class=\"key\">\"" ++ escapeHTML k ++ "\"</span>: "
            ++ renderJSON (mapGet ea k) (pathKey path k) m)
        = (sortedKeys eb).map (fun k =>
          "<li class=\"json-key " ++ getChangeType m (pathKey path k) ++ "\">"
            ++ "<span class=\"key\">\"" ++ escapeHTML k ++ "\"</span>: "
            ++ renderJSON (mapGet eb k) (pathKey path k) m) := by
      apply List.map_congr_left
      intro k hk
      have hkb : k ∈ eb.map Prod.fst := (mem_sortedKeys eb k).1 hk
      have hsb : (eb.lookup k).isSome = true := (lookup_isSome_iff eb k).2 hkb
      have hsa : (ea.lookup k).isSome = true := by rw [h1]; exact hsb
      obtain ⟨v', hv'⟩ := Option.isSome_iff_exists.1 hsa
      obtain ⟨w', hw'⟩ := Option.isSome_iff_exists.1 hsb
      have hma : mapGet ea k = v' := by rw [mapGet, hv']; rfl
      have hmb : mapGet eb k = w' := by rw [mapGet, hw']; rfl
      rw [hma, hmb,
        ih k v' w' hv' hw' (hva _ (lookup_mem hv')) (hvb _ (lookup_mem hw'))
          (pathKey path k) m]
    rw [hmap]

/-- Claim C7: renderer determinism over object key order — `sortedKeys`
returns exactly the map's keys (a permutation of them) in ascending sorted
order, and for any two values that denote the same JSON value (equivalent
scalars, positionally equivalent arrays, objects with the same
key-to-value mapping and, as in Go maps, pairwise-distinct keys) but
possibly list object entries in different orders, `renderJSON` produces
identical markup at every path and index. -/
theorem C7_renderer_determinism :
    (∀ entries : List (String × Json),
        (sortedKeys entries).Perm (entries.map Prod.fst)
          ∧ (sortedKeys entries).Sorted (· ≤ ·))
      ∧ ∀ (v w : Json), EquivJson v w → NodupJson v → NodupJson w →
          ∀ (path : String) (m : DiffMap), renderJSON v path m = renderJSON w path m := by
  constructor
  · intro entries
    exact ⟨List.perm_insertionSort _ _, List.sorted_insertionSort _ _⟩
  · intro v w he hv hw
    exact render_eq_of_equiv he hv hw

/-- Claim C7, witness: the theorem applied to two listings of the same
two-member object in opposite entry orders, rendered with the empty
index. -/
theorem C7_renderer_determinism_witness :
    renderJSON (Json.obj [(("b"), Json.null), (("a"), Json.bool true)]) ("") []
      = renderJSON (Json.obj [(("a"), Json.bool true), (("b"), Json.null)]) ("") [] := by
  apply C7_renderer_determinism.2
  · refine EquivJson.obj ?_ ?_
    · intro k
      by_cases ha : k = "a"
      · rw [ha]
        rfl
      · by_cases hb : k = "b"
        · rw [hb]
          rfl
        · rw [lookup_eq_none_of_not_mem (by simp [ha, hb]),
            lookup_eq_none_of_not_mem (by simp [ha, hb])]
    · intro k v w hv hw
      by_cases ha : k = "a"
      · rw [ha] at hv hw
        have e1 : ([(("b"), Json.null), (("a"), Json.bool true)].lookup ("a"))
            = some (Json.bool true) := rfl
        have e2 : ([(("a"), Json.bool true), (("b"), Json.null)].lookup ("a"))
            = some (Json.bool true) := rfl
        rw [e1] at hv
        rw [e2] at hw
        cases hv
        cases hw
        exact EquivJson.bool true
      · by_cases hb : k = "b"
        · rw [hb] at hv hw
          have e1 : ([(("b"), Json.null), (("a"), Json.bool true)].lookup ("b"))
              = some Json.null := rfl
          have e2 : ([(("a"), Json.bool true), (("b"), Json.null)].lookup ("b"))
              = some Json.null := rfl
          rw [e1] at hv
          rw [e2] at hw
          cases hv
          cases hw
          exact EquivJson.null
        · rw [lookup_eq_none_of_not_mem (by simp [ha, hb])] at hv
          cases hv
  · refine NodupJson.obj (by decide) ?_
    intro p hp
    rcases List.mem_cons.1 hp with rfl | hp2
    · exact NodupJson.null
    · rcases List.mem_singleton.1 hp2 with rfl
      exact NodupJson.bool true
  · refine NodupJson.obj (by decide) ?_
    intro p hp
    rcases List.mem_cons.1 hp with rfl | hp2
    · exact NodupJson.bool true
    · rcases List.mem_singleton.1 hp2 with rfl
      exact NodupJson.null

end Differ
